import Mathlib

/-!
Verification of the address-line-splitter core
(`src/address-string-to-line-convertor.py`).

Strings are modelled as lists of characters (`Str`).  The two source
functions `split_address_equally` and `distribute_parts` are embedded as
executable Lean functions; Python's whitespace handling is modelled for
the ASCII whitespace characters.  Each partial operation of the source
(list indexing, `list.index`, integer division) also has a checked
`Option`-returning variant used to state the safety claim.
-/

set_option autoImplicit false

namespace AddrSplit

/-- Model of a Python string: a list of characters. -/
abbrev Str := List Char

/-- ASCII whitespace, as recognised by Python's `str.split()` / `str.strip()`. -/
def pyWs (c : Char) : Bool :=
  c = ' ' || c = '\t' || c = '\n' || c = '\x0d' || c = '\x0b' || c = '\x0c'

/-- Worker for `pySplit`: scans the string, accumulating the current word
in reverse; whitespace ends the current word (if any). -/
def wordsAux : Str → Str → List Str
  | [], cur => if cur = [] then [] else [cur.reverse]
  | c :: rest, cur =>
    if pyWs c then
      if cur = [] then wordsAux rest [] else cur.reverse :: wordsAux rest []
    else
      wordsAux rest (c :: cur)

/-- Python `s.split()` (no argument): split on runs of whitespace,
discarding empty pieces. -/
def pySplit (s : Str) : List Str := wordsAux s []

/-- Python `" ".join(ws)`. -/
def joinSp : List Str → Str
  | [] => []
  | [w] => w
  | w :: ws => w ++ ' ' :: joinSp ws

/-- Line 25 of the source: `address = ' '.join(address.split())`. -/
def normalizeStr (s : Str) : Str := joinSp (pySplit s)

/-- Worker for `splitDelim`: split at every `,` or `;`, keeping empty pieces. -/
def splitDelimAux : Str → Str → List Str
  | [], cur => [cur.reverse]
  | c :: rest, cur =>
    if c = ',' ∨ c = ';' then cur.reverse :: splitDelimAux rest []
    else splitDelimAux rest (c :: cur)

/-- Python `re.split(r'[,;]', s)`. -/
def splitDelim (s : Str) : List Str := splitDelimAux s []

/-- Python `s.strip()`: drop whitespace from both ends. -/
def stripStr (s : Str) : Str :=
  ((s.dropWhile pyWs).reverse.dropWhile pyWs).reverse

/-- Lines 39-40 of the source: the segment list
`[part.strip() for part in re.split(r'[,;]', address) if part.strip()]`. -/
def partsOf (address : Str) : List Str :=
  ((splitDelim address).map stripStr).filter (fun p => !p.isEmpty)

/-- The dictionary returned by the source functions: exactly the three
keys `address_line_1`, `address_line_2`, `address_line_3`, each a string. -/
structure LineTriple where
  address_line_1 : Str
  address_line_2 : Str
  address_line_3 : Str
deriving DecidableEq, Repr

/-- The three line values, in key order. -/
def LineTriple.toList (t : LineTriple) : List Str :=
  [t.address_line_1, t.address_line_2, t.address_line_3]

/-- Python `ws.index(w)` (first occurrence of the value `w`), made total:
returns `ws.length` when `w` does not occur. -/
def firstIdx : List Str → Str → Nat
  | [], _ => 0
  | x :: xs, w => if x = w then 0 else firstIdx xs w + 1

/-- Python `ws.index(w)` with its failure made explicit: `none` when the
value does not occur (where Python raises `ValueError`). -/
def firstIdxQ : List Str → Str → Option Nat
  | [], _ => none
  | x :: xs, w => if x = w then some 0 else (firstIdxQ xs w).map (fun n => n + 1)

/-- Lines 73-74 of the source: the remaining text recomputed from the
first occurrence of the current word's value,
`" ".join(words[words.index(word) + 1:])`. -/
def remainingTextUsed (words : List Str) (word : Str) : Str :=
  joinSp (words.drop (firstIdx words word + 1))

/-- One iteration of the word loop (lines 63-80 of the source).  State is
the `lines` list together with `current_line`. -/
def wordStep (words : List Str) (target_length : Nat)
    (st : List Str × Nat) (word : Str) : List Str × Nat :=
  let lines := st.1
  let current_line := st.2
  let cl := lines.getD current_line []
  let cl2 := if cl ≠ [] then cl ++ ' ' :: word else word
  let lines2 := lines.set current_line cl2
  if current_line < 2 then
    let remaining_text := remainingTextUsed words word
    let remaining_lines := 3 - current_line - 1
    if cl2.length ≥ target_length ∧ remaining_lines > 0 then
      if remaining_text.length ≥ remaining_lines * 10 then
        (lines2, current_line + 1)
      else (lines2, current_line)
    else (lines2, current_line)
  else (lines2, current_line)

/-- One iteration of the part loop (lines 107-120 of the source).  State is
`lines`, `current_line` and `current_length`. -/
def partStep (parts : List Str) (target_length num_lines : Nat)
    (st : List Str × Nat × Nat) (part : Str) : List Str × Nat × Nat :=
  let lines := st.1
  let current_line := st.2.1
  let current_length := st.2.2
  let cl := lines.getD current_line []
  let cl2 := if cl ≠ [] then cl ++ ',' :: ' ' :: part else part
  let clen2 := if cl ≠ [] then current_length + part.length + 2 else part.length
  let lines2 := lines.set current_line cl2
  if current_line < num_lines - 1 then
    let remaining_parts := parts.drop (firstIdx parts part + 1)
    if remaining_parts ≠ [] ∧ clen2 ≥ target_length then
      (lines2, current_line + 1, 0)
    else (lines2, current_line, clen2)
  else (lines2, current_line, clen2)

/-- The source function `distribute_parts` (lines 89-126). -/
def distribute_parts (parts : List Str) (num_lines : Nat) : LineTriple :=
  let lines0 : List Str := [[], [], []]
  let lines :=
    if parts.length = num_lines then
      (List.range num_lines).foldl
        (fun ls i => ls.set i (if i < parts.length then parts.getD i [] else [])) lines0
    else
      let total_length := (parts.map List.length).sum
      let target_length := total_length / num_lines
      (parts.foldl (partStep parts target_length num_lines) (lines0, 0, 0)).1
  ⟨lines.getD 0 [], lines.getD 1 [], lines.getD 2 []⟩

/-- Lines 51-52 of the source: pad the word list with empty strings up to
length 3. -/
def padWords (words : List Str) : List Str :=
  words ++ List.replicate (3 - words.length) []

/-- The body of `split_address_equally` after the normalization on
line 25 (lines 27-86 of the source). -/
def splitCore (address : Str) : LineTriple :=
  if address = [] then ⟨[], [], []⟩
  else
    let target_length := address.length / 3
    let parts := partsOf address
    if parts.length ≥ 3 then
      distribute_parts parts 3
    else
      let words := pySplit address
      if words.length < 3 then
        ⟨(padWords words).getD 0 [], (padWords words).getD 1 [],
          (padWords words).getD 2 []⟩
      else
        let st := words.foldl (wordStep words target_length) ([[], [], []], 0)
        ⟨st.1.getD 0 [], st.1.getD 1 [], st.1.getD 2 []⟩

/-- The source function `split_address_equally` (lines 20-86): normalize
whitespace, then run the core. -/
def split_address_equally (address : Str) : LineTriple :=
  splitCore (normalizeStr address)

/-- Python `", ".join(ps)`. -/
def joinCS : List Str → Str
  | [] => []
  | [p] => p
  | p :: ps => p ++ ',' :: ' ' :: joinCS ps

/-- Worker for `splitCS`: split at every occurrence of the two-character
sequence `", "`. -/
def splitCSAux : Str → Str → List Str
  | [], cur => [cur.reverse]
  | [c], cur => [(c :: cur).reverse]
  | c1 :: c2 :: rest, cur =>
    if c1 = ',' ∧ c2 = ' ' then cur.reverse :: splitCSAux rest []
    else splitCSAux (c2 :: rest) (c1 :: cur)

/-- Python `s.split(", ")`. -/
def splitCS (s : Str) : List Str := splitCSAux s []

/-! ### Checked variants

The same computations with every partial operation of the Python source
made explicit: list indexing returns `none` out of bounds, `list.index`
returns `none` when the value is absent, and division checks for a zero
denominator.  `none` models a raised exception. -/

/-- Checked variant of `wordStep`: `lines[current_line]` and
`words.index(word)` may fail. -/
def wordStepC (words : List Str) (target_length : Nat)
    (st : List Str × Nat) (word : Str) : Option (List Str × Nat) :=
  (st.1.get? st.2).bind fun cl =>
    let cl2 := if cl ≠ [] then cl ++ ' ' :: word else word
    let lines2 := st.1.set st.2 cl2
    if st.2 < 2 then
      (firstIdxQ words word).bind fun idx =>
        let remaining_text := joinSp (words.drop (idx + 1))
        let remaining_lines := 3 - st.2 - 1
        if cl2.length ≥ target_length ∧ remaining_lines > 0 then
          if remaining_text.length ≥ remaining_lines * 10 then
            some (lines2, st.2 + 1)
          else some (lines2, st.2)
        else some (lines2, st.2)
    else some (lines2, st.2)

/-- Checked variant of `partStep`. -/
def partStepC (parts : List Str) (target_length num_lines : Nat)
    (st : List Str × Nat × Nat) (part : Str) : Option (List Str × Nat × Nat) :=
  (st.1.get? st.2.1).bind fun cl =>
    let cl2 := if cl ≠ [] then cl ++ ',' :: ' ' :: part else part
    let clen2 := if cl ≠ [] then st.2.2 + part.length + 2 else part.length
    let lines2 := st.1.set st.2.1 cl2
    if st.2.1 < num_lines - 1 then
      (firstIdxQ parts part).bind fun idx =>
        let remaining_parts := parts.drop (idx + 1)
        if remaining_parts ≠ [] ∧ clen2 ≥ target_length then
          some (lines2, st.2.1 + 1, 0)
        else some (lines2, st.2.1, clen2)
    else some (lines2, st.2.1, clen2)

/-- Checked variant of `distribute_parts`. -/
def distribute_partsC (parts : List Str) (num_lines : Nat) : Option LineTriple := do
  let lines0 : List Str := [[], [], []]
  let lines ←
    if parts.length = num_lines then
      (List.range num_lines).foldlM
        (fun (ls : List Str) i =>
          if i < ls.length then
            some (ls.set i (if i < parts.length then parts.getD i [] else []))
          else none) lines0
    else
      if num_lines = 0 then none
      else
        let total_length := (parts.map List.length).sum
        let target_length := total_length / num_lines
        (parts.foldlM (partStepC parts target_length num_lines) (lines0, 0, 0)).map
          (fun st => st.1)
  let l1 ← lines.get? 0
  let l2 ← lines.get? 1
  let l3 ← lines.get? 2
  some ⟨l1, l2, l3⟩

/-- Checked variant of `splitCore`. -/
def splitCoreC (address : Str) : Option LineTriple :=
  if address = [] then some ⟨[], [], []⟩
  else
    let target_length := address.length / 3
    let parts := partsOf address
    if parts.length ≥ 3 then
      distribute_partsC parts 3
    else
      let words := pySplit address
      if words.length < 3 then do
        let w1 ← (padWords words).get? 0
        let w2 ← (padWords words).get? 1
        let w3 ← (padWords words).get? 2
        some ⟨w1, w2, w3⟩
      else do
        let st ← words.foldlM (wordStepC words target_length) ([[], [], []], 0)
        let l1 ← st.1.get? 0
        let l2 ← st.1.get? 1
        let l3 ← st.1.get? 2
        some ⟨l1, l2, l3⟩

/-- Checked variant of `split_address_equally`. -/
def split_address_equallyC (address : Str) : Option LineTriple :=
  splitCoreC (normalizeStr address)

/-! ### Lemmas about the joining functions -/

theorem joinSp_nil : joinSp [] = [] := rfl

theorem joinSp_singleton (w : Str) : joinSp [w] = w := rfl

theorem joinSp_cons_cons (x y : Str) (t : List Str) :
    joinSp (x :: y :: t) = x ++ ' ' :: joinSp (y :: t) := rfl

theorem joinSp_cons (x : Str) (t : List Str) :
    joinSp (x :: t) = if t = [] then x else x ++ ' ' :: joinSp t := by
  cases t <;> simp [joinSp]

theorem joinSp_append (xs ys : List Str) (hx : xs ≠ []) (hy : ys ≠ []) :
    joinSp (xs ++ ys) = joinSp xs ++ ' ' :: joinSp ys := by
  induction xs with
  | nil => exact absurd rfl hx
  | cons x t ih =>
    rcases eq_or_ne t [] with rfl | ht
    · rw [List.singleton_append, joinSp_cons, if_neg hy, joinSp_cons, if_pos rfl]
    · simp only [List.cons_append, joinSp_cons]
      rw [if_neg (by simp [ht]), if_neg ht, ih ht]
      simp

theorem joinSp_concat (xs : List Str) (w : Str) :
    joinSp (xs ++ [w]) = if xs = [] then w else joinSp xs ++ ' ' :: w := by
  rcases eq_or_ne xs [] with rfl | hx
  · simp [joinSp]
  · rw [if_neg hx, joinSp_append xs [w] hx (by simp), joinSp_singleton]

theorem joinSp_ne_nil (xs : List Str) (hxs : xs ≠ [])
    (hall : ∀ w ∈ xs, w ≠ []) : joinSp xs ≠ [] := by
  cases xs with
  | nil => exact absurd rfl hxs
  | cons x t =>
    cases t with
    | nil =>
      have := hall x (by simp)
      simpa [joinSp_singleton] using this
    | cons y t2 => simp [joinSp_cons_cons]

theorem joinSp_grow (b : List Str) (w : Str) (hall : ∀ x ∈ b, x ≠ []) :
    (if joinSp b ≠ [] then joinSp b ++ ' ' :: w else w) = joinSp (b ++ [w]) := by
  by_cases hb : b = []
  · subst hb; simp [joinSp_nil, joinSp_singleton]
  · rw [if_pos (by simpa using joinSp_ne_nil b hb hall), joinSp_concat, if_neg hb]

theorem joinCS_nil : joinCS [] = [] := rfl

theorem joinCS_singleton (w : Str) : joinCS [w] = w := rfl

theorem joinCS_cons_cons (x y : Str) (t : List Str) :
    joinCS (x :: y :: t) = x ++ ',' :: ' ' :: joinCS (y :: t) := rfl

theorem joinCS_cons (x : Str) (t : List Str) :
    joinCS (x :: t) = if t = [] then x else x ++ ',' :: ' ' :: joinCS t := by
  cases t <;> simp [joinCS]

theorem joinCS_append (xs ys : List Str) (hx : xs ≠ []) (hy : ys ≠ []) :
    joinCS (xs ++ ys) = joinCS xs ++ ',' :: ' ' :: joinCS ys := by
  induction xs with
  | nil => exact absurd rfl hx
  | cons x t ih =>
    rcases eq_or_ne t [] with rfl | ht
    · rw [List.singleton_append, joinCS_cons, if_neg hy, joinCS_cons, if_pos rfl]
    · simp only [List.cons_append, joinCS_cons]
      rw [if_neg (by simp [ht]), if_neg ht, ih ht]
      simp

theorem joinCS_concat (xs : List Str) (w : Str) :
    joinCS (xs ++ [w]) = if xs = [] then w else joinCS xs ++ ',' :: ' ' :: w := by
  rcases eq_or_ne xs [] with rfl | hx
  · simp [joinCS]
  · rw [if_neg hx, joinCS_append xs [w] hx (by simp), joinCS_singleton]

theorem joinCS_ne_nil (xs : List Str) (hxs : xs ≠ [])
    (hall : ∀ w ∈ xs, w ≠ []) : joinCS xs ≠ [] := by
  cases xs with
  | nil => exact absurd rfl hxs
  | cons x t =>
    cases t with
    | nil =>
      have := hall x (by simp)
      simpa [joinCS_singleton] using this
    | cons y t2 => simp [joinCS_cons_cons]

theorem joinCS_grow (b : List Str) (w : Str) (hall : ∀ x ∈ b, x ≠ []) :
    (if joinCS b ≠ [] then joinCS b ++ ',' :: ' ' :: w else w) = joinCS (b ++ [w]) := by
  by_cases hb : b = []
  · subst hb; simp [joinCS_nil, joinCS_singleton]
  · rw [if_pos (by simpa using joinCS_ne_nil b hb hall), joinCS_concat, if_neg hb]

/-! ### Lemmas about `pySplit` and normalization -/

theorem wordsAux_ne_nil : ∀ (s : Str) (acc : Str), ∀ w ∈ wordsAux s acc, w ≠ [] := by
  intro s
  induction s with
  | nil =>
    intro acc w hw
    by_cases h : acc = [] <;> simp [wordsAux, h] at hw
    subst hw
    simpa using h
  | cons c rest ih =>
    intro acc w hw
    by_cases hc : pyWs c
    · by_cases h : acc = [] <;> simp [wordsAux, hc, h] at hw
      · exact ih [] w hw
      · rcases hw with hw | hw
        · subst hw; simpa using h
        · exact ih [] w hw
    · simp only [wordsAux, hc, if_neg, Bool.false_eq_true] at hw
      exact ih (c :: acc) w hw

theorem wordsAux_clean : ∀ (s : Str) (acc : Str),
    (∀ c ∈ acc, pyWs c = false) →
    ∀ w ∈ wordsAux s acc, ∀ c ∈ w, pyWs c = false := by
  intro s
  induction s with
  | nil =>
    intro acc hacc w hw c hc
    by_cases h : acc = [] <;> simp [wordsAux, h] at hw
    subst hw
    exact hacc c (by simpa using hc)
  | cons d rest ih =>
    intro acc hacc w hw c hc
    by_cases hd : pyWs d
    · by_cases h : acc = [] <;> simp [wordsAux, hd, h] at hw
      · exact ih [] (by simp) w hw c hc
      · rcases hw with hw | hw
        · subst hw; exact hacc c (by simpa using hc)
        · exact ih [] (by simp) w hw c hc
    · simp only [wordsAux, hd, Bool.false_eq_true, if_neg] at hw
      refine ih (d :: acc) ?_ w hw c hc
      intro e he
      rcases List.mem_cons.mp he with he | he
      · subst he; simpa using hd
      · exact hacc e he

theorem pySplit_tokens (s : Str) :
    ∀ w ∈ pySplit s, w ≠ [] ∧ ∀ c ∈ w, pyWs c = false := by
  intro w hw
  exact ⟨wordsAux_ne_nil s [] w hw, wordsAux_clean s [] (by simp) w hw⟩

theorem wordsAux_push (w : Str) (hw : ∀ c ∈ w, pyWs c = false) :
    ∀ (s : Str) (acc : Str), wordsAux (w ++ s) acc = wordsAux s (w.reverse ++ acc) := by
  induction w with
  | nil => intro s acc; simp
  | cons c w2 ih =>
    intro s acc
    have hc : pyWs c = false := hw c (by simp)
    rw [List.cons_append]
    show wordsAux (c :: (w2 ++ s)) acc = _
    simp only [wordsAux, hc, Bool.false_eq_true, if_neg]
    rw [ih (fun d hd => hw d (by simp [hd])) s (c :: acc)]
    simp

theorem pySplit_joinSp (ws : List Str)
    (h : ∀ w ∈ ws, w ≠ [] ∧ ∀ c ∈ w, pyWs c = false) :
    pySplit (joinSp ws) = ws := by
  induction ws with
  | nil => rfl
  | cons w t ih =>
    have hw := h w (by simp)
    cases t with
    | nil =>
      rw [joinSp_singleton]
      show wordsAux w [] = [w]
      conv_lhs => rw [show w = w ++ [] from (List.append_nil w).symm]
      rw [wordsAux_push w hw.2]
      simp [wordsAux, hw.1]
    | cons y t2 =>
      rw [joinSp_cons_cons]
      show wordsAux (w ++ ' ' :: joinSp (y :: t2)) [] = w :: y :: t2
      rw [wordsAux_push w hw.2, List.append_nil]
      have hws : pyWs ' ' = true := by simp [pyWs]
      have hwne : w.reverse ≠ [] := by simpa using hw.1
      simp only [wordsAux, hws, hwne, ite_true, ite_false, List.reverse_reverse,
        if_true, if_false, eq_self_iff_true]
      rw [show wordsAux (joinSp (y :: t2)) [] = pySplit (joinSp (y :: t2)) from rfl,
        ih (fun x hx => h x (by simp [hx]))]

theorem pySplit_normalizeStr (s : Str) : pySplit (normalizeStr s) = pySplit s :=
  pySplit_joinSp (pySplit s) (pySplit_tokens s)

theorem normalizeStr_idem (s : Str) : normalizeStr (normalizeStr s) = normalizeStr s :=
  congrArg joinSp (pySplit_normalizeStr s)

theorem pySplit_ne_nil_of_normalize (s : Str) (h : normalizeStr s ≠ []) :
    pySplit s ≠ [] := by
  intro hc
  exact h (by simp [normalizeStr, hc, joinSp_nil])

/-! ### Lemmas about the delimiter split and `partsOf` -/

theorem splitDelimAux_no_delim : ∀ (s : Str) (acc : Str),
    (∀ c ∈ acc, ¬(c = ',' ∨ c = ';')) →
    ∀ p ∈ splitDelimAux s acc, ∀ c ∈ p, ¬(c = ',' ∨ c = ';') := by
  intro s
  induction s with
  | nil =>
    intro acc hacc p hp c hc
    simp [splitDelimAux] at hp
    subst hp
    exact hacc c (by simpa using hc)
  | cons d rest ih =>
    intro acc hacc p hp c hc
    by_cases hd : d = ',' ∨ d = ';'
    · simp [splitDelimAux, hd] at hp
      rcases hp with hp | hp
      · subst hp; exact hacc c (by simpa using hc)
      · exact ih [] (by simp) p hp c hc
    · simp [splitDelimAux, hd] at hp
      refine ih (d :: acc) ?_ p hp c hc
      intro e he
      rcases List.mem_cons.mp he with he | he
      · subst he; exact hd
      · exact hacc e he

theorem stripStr_subset (s : Str) : ∀ c ∈ stripStr s, c ∈ s := by
  intro c hc
  simp only [stripStr, List.mem_reverse] at hc
  have h1 := (List.dropWhile_sublist (l := (s.dropWhile pyWs).reverse) pyWs).subset hc
  rw [List.mem_reverse] at h1
  exact (List.dropWhile_sublist (l := s) pyWs).subset h1

theorem partsOf_props (a : Str) : ∀ p ∈ partsOf a, p ≠ [] ∧ ',' ∉ p := by
  intro p hp
  simp only [partsOf, List.mem_filter, List.mem_map] at hp
  obtain ⟨⟨q, hq, hpq⟩, hne⟩ := hp
  constructor
  · intro h
    rw [h] at hne
    simp at hne
  · intro hmem
    subst hpq
    exact splitDelimAux_no_delim a [] (by simp) q hq ',' (stripStr_subset q ',' hmem) (Or.inl rfl)

theorem partsOf_nil : partsOf [] = [] := rfl

/-! ### Lemmas about `firstIdx` -/

theorem firstIdx_le (ws : List Str) (w : Str) :
    ∀ j, j < ws.length → ws.getD j [] = w → firstIdx ws w ≤ j := by
  induction ws with
  | nil => intro j hj; simp at hj
  | cons x t ih =>
    intro j hj hget
    by_cases hx : x = w
    · simp [firstIdx, hx]
    · cases j with
      | zero => simp at hget; exact absurd hget hx
      | succ k =>
        simp only [firstIdx, hx, if_neg, ite_false]
        have := ih k (by simpa using Nat.lt_of_succ_lt_succ hj) (by simpa using hget)
        omega

theorem firstIdx_lt_length (ws : List Str) (w : Str) (h : w ∈ ws) :
    firstIdx ws w < ws.length := by
  induction ws with
  | nil => simp at h
  | cons x t ih =>
    by_cases hx : x = w
    · simp [firstIdx, hx]
    · have hm : w ∈ t := by
        rcases List.mem_cons.mp h with h1 | h1
        · exact absurd h1.symm hx
        · exact h1
      simp only [firstIdx, hx, ite_false, List.length_cons]
      exact Nat.succ_lt_succ (ih hm)

theorem getD_firstIdx (ws : List Str) (w : Str) (h : w ∈ ws) :
    ws.getD (firstIdx ws w) [] = w := by
  induction ws with
  | nil => simp at h
  | cons x t ih =>
    by_cases hx : x = w
    · simp [firstIdx, hx]
    · have hm : w ∈ t := by
        rcases List.mem_cons.mp h with h1 | h1
        · exact absurd h1.symm hx
        · exact h1
      simp only [firstIdx, hx, ite_false]
      simpa using ih hm

theorem firstIdx_min (ws : List Str) (w : Str) :
    ∀ k, k < firstIdx ws w → ws.getD k [] ≠ w := by
  induction ws with
  | nil => intro k hk; simp [firstIdx] at hk
  | cons x t ih =>
    intro k hk
    by_cases hx : x = w
    · simp [firstIdx, hx] at hk
    · cases k with
      | zero => simpa using hx
      | succ m =>
        simp only [firstIdx, hx, ite_false] at hk
        simpa using ih m (Nat.lt_of_succ_lt_succ hk)

theorem firstIdxQ_eq (ws : List Str) (w : Str) (h : w ∈ ws) :
    firstIdxQ ws w = some (firstIdx ws w) := by
  induction ws with
  | nil => simp at h
  | cons x t ih =>
    by_cases hx : x = w
    · simp [firstIdxQ, firstIdx, hx]
    · have hm : w ∈ t := by
        rcases List.mem_cons.mp h with h1 | h1
        · exact absurd h1.symm hx
        · exact h1
      simp [firstIdxQ, firstIdx, hx, ih hm]

/-! ### Lemmas about `splitCS` -/

theorem splitCSAux_no_comma (p : Str) (hp : ',' ∉ p) :
    ∀ acc, splitCSAux p acc = [acc.reverse ++ p] := by
  induction p with
  | nil => intro acc; simp [splitCSAux]
  | cons c p2 ih =>
    intro acc
    have hc : c ≠ ',' := fun h => hp (by simp [h])
    cases p2 with
    | nil => simp [splitCSAux]
    | cons d p3 =>
      have step : splitCSAux (c :: d :: p3) acc = splitCSAux (d :: p3) (c :: acc) := by
        simp only [splitCSAux]
        rw [if_neg (by intro hcd; exact hc hcd.1)]
      rw [step, ih (fun h => hp (by simp [h])) (c :: acc)]
      simp

theorem splitCSAux_boundary (p : Str) (hp : ',' ∉ p) :
    ∀ (t : Str) (acc : Str),
      splitCSAux (p ++ ',' :: ' ' :: t) acc = (acc.reverse ++ p) :: splitCS t := by
  induction p with
  | nil =>
    intro t acc
    show splitCSAux (',' :: ' ' :: t) acc = _
    simp [splitCSAux, splitCS]
  | cons c p2 ih =>
    intro t acc
    have hc : c ≠ ',' := fun h => hp (by simp [h])
    have step : splitCSAux (c :: (p2 ++ ',' :: ' ' :: t)) acc
        = splitCSAux (p2 ++ ',' :: ' ' :: t) (c :: acc) := by
      cases p2 with
      | nil =>
        simp only [List.nil_append, splitCSAux]
        rw [if_neg (by intro hcd; exact hc hcd.1)]
      | cons d p3 =>
        simp only [List.cons_append, splitCSAux]
        rw [if_neg (by intro hcd; exact hc hcd.1)]
        rfl
    rw [List.cons_append, step, ih (fun h => hp (by simp [h])) t (c :: acc)]
    simp

theorem splitCS_of_no_comma (p : Str) (hp : ',' ∉ p) : splitCS p = [p] := by
  rw [splitCS, splitCSAux_no_comma p hp []]
  simp

theorem splitCS_join_append (xs : List Str) (t : Str) (hxs : xs ≠ [])
    (hc : ∀ p ∈ xs, ',' ∉ p) :
    splitCS (joinCS xs ++ ',' :: ' ' :: t) = xs ++ splitCS t := by
  induction xs with
  | nil => exact absurd rfl hxs
  | cons x t2 ih =>
    rcases eq_or_ne t2 [] with rfl | ht2
    · rw [joinCS_singleton, splitCS, splitCSAux_boundary x (hc x (by simp)) t []]
      simp
    · rw [joinCS_cons, if_neg ht2, List.append_assoc, List.cons_append,
        List.cons_append, splitCS,
        splitCSAux_boundary x (hc x (by simp)) (joinCS t2 ++ ',' :: ' ' :: t) []]
      rw [ih ht2 (fun p hp => hc p (by simp [hp]))]
      simp

theorem splitCS_joinCS (xs : List Str) (hxs : xs ≠ [])
    (hc : ∀ p ∈ xs, ',' ∉ p) : splitCS (joinCS xs) = xs := by
  induction xs with
  | nil => exact absurd rfl hxs
  | cons x t ih =>
    rcases eq_or_ne t [] with rfl | ht
    · rw [joinCS_singleton, splitCS_of_no_comma x (hc x (by simp))]
    · rw [joinCS_cons, if_neg ht]
      show splitCSAux (x ++ ',' :: ' ' :: joinCS t) [] = x :: t
      rw [splitCSAux_boundary x (hc x (by simp)) (joinCS t) []]
      rw [ih ht (fun p hp => hc p (by simp [hp]))]
      simp

/-! ### Shape of the word-loop state

After processing the prefix `done` of the word list, the three lines are
the space-joins of three consecutive blocks of `done`; every block
before the current line is nonempty and every block after it is empty. -/

def WordShape (done : List Str) (st : List Str × Nat) : Prop :=
  ∃ b1 b2 b3 : List Str, done = b1 ++ b2 ++ b3 ∧
    st.1 = [joinSp b1, joinSp b2, joinSp b3] ∧
    ((st.2 = 0 ∧ b2 = [] ∧ b3 = []) ∨
     (st.2 = 1 ∧ b1 ≠ [] ∧ b3 = []) ∨
     (st.2 = 2 ∧ b1 ≠ [] ∧ b2 ≠ []))

theorem wordStep_cases (words : List Str) (tgt : Nat) (st : List Str × Nat) (w : Str) :
    (wordStep words tgt st w).1
        = st.1.set st.2
            (if st.1.getD st.2 [] ≠ [] then st.1.getD st.2 [] ++ ' ' :: w else w) ∧
    ((wordStep words tgt st w).2 = st.2 ∨
      ((wordStep words tgt st w).2 = st.2 + 1 ∧ st.2 < 2)) := by
  simp only [wordStep]
  split_ifs <;> simp_all

theorem wordStep_shape (words : List Str) (tgt : Nat) (done : List Str)
    (st : List Str × Nat) (w : Str) (hall : ∀ x ∈ done, x ≠ []) (hw : w ≠ [])
    (h : WordShape done st) : WordShape (done ++ [w]) (wordStep words tgt st w) := by
  obtain ⟨b1, b2, b3, hdone, hlines, hcase⟩ := h
  obtain ⟨hfst, hsnd⟩ := wordStep_cases words tgt st w
  rcases hcase with ⟨hc, g2, g3⟩ | ⟨hc, g1, g3⟩ | ⟨hc, g1, g2⟩
  · have hall1 : ∀ x ∈ b1, x ≠ [] := fun x hx => hall x (by rw [hdone]; simp [hx])
    have hgrow : (if st.1.getD st.2 [] ≠ [] then st.1.getD st.2 [] ++ ' ' :: w else w)
        = joinSp (b1 ++ [w]) := by
      rw [hlines, hc]
      simpa using joinSp_grow b1 w hall1
    have hset : (wordStep words tgt st w).1
        = [joinSp (b1 ++ [w]), joinSp b2, joinSp b3] := by
      rw [hfst, hgrow, hlines, hc]; rfl
    rcases hsnd with h0 | ⟨h1, _⟩
    · exact ⟨b1 ++ [w], b2, b3, by simp [hdone, g2, g3], hset,
        Or.inl ⟨by rw [h0, hc], g2, g3⟩⟩
    · exact ⟨b1 ++ [w], b2, b3, by simp [hdone, g2, g3], hset,
        Or.inr (Or.inl ⟨by rw [h1, hc], by simp, g3⟩)⟩
  · have hall2 : ∀ x ∈ b2, x ≠ [] := fun x hx => hall x (by rw [hdone]; simp [hx])
    have hgrow : (if st.1.getD st.2 [] ≠ [] then st.1.getD st.2 [] ++ ' ' :: w else w)
        = joinSp (b2 ++ [w]) := by
      rw [hlines, hc]
      simpa using joinSp_grow b2 w hall2
    have hset : (wordStep words tgt st w).1
        = [joinSp b1, joinSp (b2 ++ [w]), joinSp b3] := by
      rw [hfst, hgrow, hlines, hc]; rfl
    rcases hsnd with h0 | ⟨h1, _⟩
    · exact ⟨b1, b2 ++ [w], b3, by simp [hdone, g3], hset,
        Or.inr (Or.inl ⟨by rw [h0, hc], g1, g3⟩)⟩
    · exact ⟨b1, b2 ++ [w], b3, by simp [hdone, g3], hset,
        Or.inr (Or.inr ⟨by rw [h1, hc], g1, by simp⟩)⟩
  · have hall3 : ∀ x ∈ b3, x ≠ [] := fun x hx => hall x (by rw [hdone]; simp [hx])
    have hgrow : (if st.1.getD st.2 [] ≠ [] then st.1.getD st.2 [] ++ ' ' :: w else w)
        = joinSp (b3 ++ [w]) := by
      rw [hlines, hc]
      simpa using joinSp_grow b3 w hall3
    have hset : (wordStep words tgt st w).1
        = [joinSp b1, joinSp b2, joinSp (b3 ++ [w])] := by
      rw [hfst, hgrow, hlines, hc]; rfl
    rcases hsnd with h0 | ⟨h1, hlt⟩
    · exact ⟨b1, b2, b3 ++ [w], by simp [hdone], hset,
        Or.inr (Or.inr ⟨by rw [h0, hc], g1, g2⟩)⟩
    · rw [hc] at hlt; omega

theorem wordFold_shape (words : List Str) (tgt : Nat) :
    ∀ (todo done : List Str) (st : List Str × Nat),
      (∀ x ∈ done, x ≠ []) → (∀ x ∈ todo, x ≠ []) →
      WordShape done st →
      WordShape (done ++ todo) (List.foldl (wordStep words tgt) st todo) := by
  intro todo
  induction todo with
  | nil => intro done st _ _ h3; simpa using h3
  | cons w t ih =>
    intro done st h1 h2 h3
    rw [List.foldl_cons]
    have step := wordStep_shape words tgt done st w h1 (h2 w (by simp)) h3
    have hdone2 : ∀ x ∈ done ++ [w], x ≠ [] := by
      intro x hx
      rcases List.mem_append.mp hx with hx | hx
      · exact h1 x hx
      · simp at hx; subst hx; exact h2 _ (List.mem_cons_self _ _)
    have := ih (done ++ [w]) (wordStep words tgt st w) hdone2
      (fun x hx => h2 x (by simp [hx])) step
    simpa [List.append_assoc] using this

/-! ### Shape of the part-loop state -/

def PartShape (done : List Str) (st : List Str × Nat × Nat) : Prop :=
  ∃ b1 b2 b3 : List Str, done = b1 ++ b2 ++ b3 ∧
    st.1 = [joinCS b1, joinCS b2, joinCS b3] ∧
    ((st.2.1 = 0 ∧ b2 = [] ∧ b3 = []) ∨
     (st.2.1 = 1 ∧ b1 ≠ [] ∧ b3 = []) ∨
     (st.2.1 = 2 ∧ b1 ≠ [] ∧ b2 ≠ []))

theorem partStep_cases (parts : List Str) (tgt : Nat) (st : List Str × Nat × Nat)
    (part : Str) :
    (partStep parts tgt 3 st part).1
        = st.1.set st.2.1
            (if st.1.getD st.2.1 [] ≠ [] then st.1.getD st.2.1 [] ++ ',' :: ' ' :: part
             else part) ∧
    ((partStep parts tgt 3 st part).2.1 = st.2.1 ∨
      ((partStep parts tgt 3 st part).2.1 = st.2.1 + 1 ∧ st.2.1 < 2)) := by
  simp only [partStep]
  split_ifs <;> simp_all

theorem partStep_shape (parts : List Str) (tgt : Nat) (done : List Str)
    (st : List Str × Nat × Nat) (p : Str) (hall : ∀ x ∈ done, x ≠ []) (hp : p ≠ [])
    (h : PartShape done st) : PartShape (done ++ [p]) (partStep parts tgt 3 st p) := by
  obtain ⟨b1, b2, b3, hdone, hlines, hcase⟩ := h
  obtain ⟨hfst, hsnd⟩ := partStep_cases parts tgt st p
  rcases hcase with ⟨hc, g2, g3⟩ | ⟨hc, g1, g3⟩ | ⟨hc, g1, g2⟩
  · have hall1 : ∀ x ∈ b1, x ≠ [] := fun x hx => hall x (by rw [hdone]; simp [hx])
    have hgrow : (if st.1.getD st.2.1 [] ≠ [] then st.1.getD st.2.1 [] ++ ',' :: ' ' :: p
        else p) = joinCS (b1 ++ [p]) := by
      rw [hlines, hc]
      simpa using joinCS_grow b1 p hall1
    have hset : (partStep parts tgt 3 st p).1
        = [joinCS (b1 ++ [p]), joinCS b2, joinCS b3] := by
      rw [hfst, hgrow, hlines, hc]; rfl
    rcases hsnd with h0 | ⟨h1, _⟩
    · exact ⟨b1 ++ [p], b2, b3, by simp [hdone, g2, g3], hset,
        Or.inl ⟨by rw [h0, hc], g2, g3⟩⟩
    · exact ⟨b1 ++ [p], b2, b3, by simp [hdone, g2, g3], hset,
        Or.inr (Or.inl ⟨by rw [h1, hc], by simp, g3⟩)⟩
  · have hall2 : ∀ x ∈ b2, x ≠ [] := fun x hx => hall x (by rw [hdone]; simp [hx])
    have hgrow : (if st.1.getD st.2.1 [] ≠ [] then st.1.getD st.2.1 [] ++ ',' :: ' ' :: p
        else p) = joinCS (b2 ++ [p]) := by
      rw [hlines, hc]
      simpa using joinCS_grow b2 p hall2
    have hset : (partStep parts tgt 3 st p).1
        = [joinCS b1, joinCS (b2 ++ [p]), joinCS b3] := by
      rw [hfst, hgrow, hlines, hc]; rfl
    rcases hsnd with h0 | ⟨h1, _⟩
    · exact ⟨b1, b2 ++ [p], b3, by simp [hdone, g3], hset,
        Or.inr (Or.inl ⟨by rw [h0, hc], g1, g3⟩)⟩
    · exact ⟨b1, b2 ++ [p], b3, by simp [hdone, g3], hset,
        Or.inr (Or.inr ⟨by rw [h1, hc], g1, by simp⟩)⟩
  · have hall3 : ∀ x ∈ b3, x ≠ [] := fun x hx => hall x (by rw [hdone]; simp [hx])
    have hgrow : (if st.1.getD st.2.1 [] ≠ [] then st.1.getD st.2.1 [] ++ ',' :: ' ' :: p
        else p) = joinCS (b3 ++ [p]) := by
      rw [hlines, hc]
      simpa using joinCS_grow b3 p hall3
    have hset : (partStep parts tgt 3 st p).1
        = [joinCS b1, joinCS b2, joinCS (b3 ++ [p])] := by
      rw [hfst, hgrow, hlines, hc]; rfl
    rcases hsnd with h0 | ⟨h1, hlt⟩
    · exact ⟨b1, b2, b3 ++ [p], by simp [hdone], hset,
        Or.inr (Or.inr ⟨by rw [h0, hc], g1, g2⟩)⟩
    · rw [hc] at hlt; omega

theorem partFold_shape (parts : List Str) (tgt : Nat) :
    ∀ (todo done : List Str) (st : List Str × Nat × Nat),
      (∀ x ∈ done, x ≠ []) → (∀ x ∈ todo, x ≠ []) →
      PartShape done st →
      PartShape (done ++ todo) (List.foldl (partStep parts tgt 3) st todo) := by
  intro todo
  induction todo with
  | nil => intro done st _ _ h3; simpa using h3
  | cons p t ih =>
    intro done st h1 h2 h3
    rw [List.foldl_cons]
    have step := partStep_shape parts tgt done st p h1 (h2 p (by simp)) h3
    have hdone2 : ∀ x ∈ done ++ [p], x ≠ [] := by
      intro x hx
      rcases List.mem_append.mp hx with hx | hx
      · exact h1 x hx
      · simp at hx; subst hx; exact h2 _ (List.mem_cons_self _ _)
    have := ih (done ++ [p]) (partStep parts tgt 3 st p) hdone2
      (fun x hx => h2 x (by simp [hx])) step
    simpa [List.append_assoc] using this

/-! ### Path lemmas for `splitCore` -/

theorem splitCore_empty : splitCore [] = ⟨[], [], []⟩ := rfl

theorem splitCore_parts (a : Str) (ha : a ≠ []) (hp : (partsOf a).length ≥ 3) :
    splitCore a = distribute_parts (partsOf a) 3 := by
  simp only [splitCore]
  rw [if_neg ha, if_pos hp]

theorem splitCore_pad (a : Str) (ha : a ≠ []) (hp : ¬(partsOf a).length ≥ 3)
    (hw : (pySplit a).length < 3) :
    splitCore a = ⟨(padWords (pySplit a)).getD 0 [], (padWords (pySplit a)).getD 1 [],
      (padWords (pySplit a)).getD 2 []⟩ := by
  simp only [splitCore]
  rw [if_neg ha, if_neg hp, if_pos hw]

theorem splitCore_words (a : Str) (ha : a ≠ []) (hp : ¬(partsOf a).length ≥ 3)
    (hw : ¬(pySplit a).length < 3) :
    splitCore a =
      ⟨((pySplit a).foldl (wordStep (pySplit a) (a.length / 3)) ([[], [], []], 0)).1.getD 0 [],
       ((pySplit a).foldl (wordStep (pySplit a) (a.length / 3)) ([[], [], []], 0)).1.getD 1 [],
       ((pySplit a).foldl (wordStep (pySplit a) (a.length / 3)) ([[], [], []], 0)).1.getD 2 []⟩ := by
  simp only [splitCore]
  rw [if_neg ha, if_neg hp, if_neg hw]

/-- On the word path, the result lines are the space-joins of three
consecutive blocks of the word list, with empty blocks only at the end. -/
theorem splitCore_word_blocks (a : Str) (ha : a ≠ []) (hp : ¬(partsOf a).length ≥ 3)
    (hw : ¬(pySplit a).length < 3) :
    ∃ b1 b2 b3 : List Str, pySplit a = b1 ++ b2 ++ b3 ∧
      splitCore a = ⟨joinSp b1, joinSp b2, joinSp b3⟩ ∧
      ((b1 = pySplit a ∧ b2 = [] ∧ b3 = []) ∨ (b1 ≠ [] ∧ b3 = []) ∨ (b1 ≠ [] ∧ b2 ≠ [])) := by
  have hinit : WordShape [] (([[], [], []] : List Str), 0) :=
    ⟨[], [], [], rfl, by simp [joinSp_nil], Or.inl ⟨rfl, rfl, rfl⟩⟩
  have hall : ∀ x ∈ pySplit a, x ≠ [] := fun x hx => (pySplit_tokens a x hx).1
  have hfold := wordFold_shape (pySplit a) (a.length / 3) (pySplit a) [] ([[], [], []], 0)
    (by simp) hall hinit
  rw [List.nil_append] at hfold
  obtain ⟨b1, b2, b3, hsplit, hlines, hcase⟩ := hfold
  refine ⟨b1, b2, b3, hsplit, ?_, ?_⟩
  · rw [splitCore_words a ha hp hw, hlines]
    rfl
  · rcases hcase with ⟨_, g2, g3⟩ | ⟨_, g1, g3⟩ | ⟨_, g1, g2⟩
    · exact Or.inl ⟨by simp [hsplit, g2, g3], g2, g3⟩
    · exact Or.inr (Or.inl ⟨g1, g3⟩)
    · exact Or.inr (Or.inr ⟨g1, g2⟩)

/-! ### Lemmas about `distribute_parts` -/

theorem distribute_parts_three (p q r : Str) :
    distribute_parts [p, q, r] 3 = ⟨p, q, r⟩ := rfl

theorem distribute_parts_greedy (parts : List Str) (hne : parts.length ≠ 3) :
    distribute_parts parts 3 =
      ⟨(parts.foldl (partStep parts ((parts.map List.length).sum / 3) 3)
          ([[], [], []], 0, 0)).1.getD 0 [],
       (parts.foldl (partStep parts ((parts.map List.length).sum / 3) 3)
          ([[], [], []], 0, 0)).1.getD 1 [],
       (parts.foldl (partStep parts ((parts.map List.length).sum / 3) 3)
          ([[], [], []], 0, 0)).1.getD 2 []⟩ := by
  simp only [distribute_parts]
  rw [if_neg hne]

/-- For 3 or more nonempty parts, the result lines of `distribute_parts`
are comma-space joins of three consecutive blocks of the part list, the
first block nonempty and empty blocks only at the end. -/
theorem distribute_parts_blocks (parts : List Str) (h3 : parts.length ≥ 3)
    (hall : ∀ p ∈ parts, p ≠ []) :
    ∃ b1 b2 b3 : List Str, parts = b1 ++ b2 ++ b3 ∧
      distribute_parts parts 3 = ⟨joinCS b1, joinCS b2, joinCS b3⟩ ∧
      ((b1 = parts ∧ b2 = [] ∧ b3 = []) ∨ (b1 ≠ [] ∧ b2 ≠ [] ∧ b3 = []) ∨
        (b1 ≠ [] ∧ b2 ≠ [])) := by
  by_cases hlen : parts.length = 3
  · obtain ⟨p, q, r, hpqr⟩ : ∃ p q r, parts = [p, q, r] := by
      match parts, hlen with
      | [p, q, r], _ => exact ⟨p, q, r, rfl⟩
    subst hpqr
    exact ⟨[p], [q], [r], rfl, distribute_parts_three p q r,
      Or.inr (Or.inr ⟨by simp, by simp⟩)⟩
  · have hinit : PartShape [] (([[], [], []] : List Str), 0, 0) :=
      ⟨[], [], [], rfl, by simp [joinCS_nil], Or.inl ⟨rfl, rfl, rfl⟩⟩
    have hfold := partFold_shape parts ((parts.map List.length).sum / 3) parts []
      ([[], [], []], 0, 0) (by simp) hall hinit
    rw [List.nil_append] at hfold
    obtain ⟨b1, b2, b3, hsplit, hlines, hcase⟩ := hfold
    refine ⟨b1, b2, b3, hsplit, ?_, ?_⟩
    · rw [distribute_parts_greedy parts hlen, hlines]
      rfl
    · rcases hcase with ⟨_, g2, g3⟩ | ⟨_, g1, g3⟩ | ⟨_, g1, g2⟩
      · exact Or.inl ⟨by simp [hsplit, g2, g3], g2, g3⟩
      · rcases eq_or_ne b2 [] with rfl | g2
        · exact Or.inl ⟨by simpa [g3] using hsplit.symm, rfl, g3⟩
        · exact Or.inr (Or.inl ⟨g1, g2, g3⟩)
      · exact Or.inr (Or.inr ⟨g1, g2⟩)

/-! ### The checked computation never fails and agrees with the plain one -/

theorem get?_eq_some_getD (l : List Str) (i : Nat) (h : i < l.length) :
    l.get? i = some (l.getD i []) := by
  rw [List.getD_eq_getD_get?]
  cases hh : l.get? i with
  | none =>
    have := List.get?_eq_none.mp hh
    omega
  | some v => rfl

theorem wordStepC_eq (words : List Str) (tgt : Nat) (st : List Str × Nat) (word : Str)
    (hcur : st.2 < st.1.length) (hmem : word ∈ words) :
    wordStepC words tgt st word = some (wordStep words tgt st word) := by
  simp only [wordStepC, wordStep, remainingTextUsed]
  rw [get?_eq_some_getD st.1 st.2 hcur, firstIdxQ_eq words word hmem]
  simp only [Option.some_bind]
  split_ifs <;> rfl

theorem wordStep_inv (words : List Str) (tgt : Nat) (st : List Str × Nat) (word : Str)
    (hlen : st.1.length = 3) (hcur : st.2 < 3) :
    (wordStep words tgt st word).1.length = 3 ∧ (wordStep words tgt st word).2 < 3 := by
  obtain ⟨hfst, hsnd⟩ := wordStep_cases words tgt st word
  constructor
  · rw [hfst, List.length_set, hlen]
  · rcases hsnd with h | ⟨h, hl⟩ <;> omega

theorem wordFoldC_eq (words : List Str) (tgt : Nat) :
    ∀ (todo : List Str) (st : List Str × Nat),
      st.1.length = 3 → st.2 < 3 → (∀ w ∈ todo, w ∈ words) →
      List.foldlM (wordStepC words tgt) st todo
          = some (List.foldl (wordStep words tgt) st todo)
        ∧ (List.foldl (wordStep words tgt) st todo).1.length = 3
        ∧ (List.foldl (wordStep words tgt) st todo).2 < 3 := by
  intro todo
  induction todo with
  | nil => intro st h1 h2 _; exact ⟨rfl, h1, h2⟩
  | cons w t ih =>
    intro st h1 h2 h3
    have hstep := wordStepC_eq words tgt st w (by omega) (h3 w (by simp))
    obtain ⟨hl, hc⟩ := wordStep_inv words tgt st w h1 h2
    have := ih (wordStep words tgt st w) hl hc (fun x hx => h3 x (by simp [hx]))
    refine ⟨?_, by simpa using this.2.1, by simpa using this.2.2⟩
    rw [List.foldlM_cons, hstep]
    simpa using this.1

theorem partStepC_eq (parts : List Str) (tgt : Nat) (st : List Str × Nat × Nat)
    (part : Str) (hcur : st.2.1 < st.1.length) (hmem : part ∈ parts) :
    partStepC parts tgt 3 st part = some (partStep parts tgt 3 st part) := by
  simp only [partStepC, partStep]
  rw [get?_eq_some_getD st.1 st.2.1 hcur, firstIdxQ_eq parts part hmem]
  simp only [Option.some_bind]
  split_ifs <;> rfl

theorem partStep_inv (parts : List Str) (tgt : Nat) (st : List Str × Nat × Nat)
    (part : Str) (hlen : st.1.length = 3) (hcur : st.2.1 < 3) :
    (partStep parts tgt 3 st part).1.length = 3
      ∧ (partStep parts tgt 3 st part).2.1 < 3 := by
  obtain ⟨hfst, hsnd⟩ := partStep_cases parts tgt st part
  constructor
  · rw [hfst, List.length_set, hlen]
  · rcases hsnd with h | ⟨h, hl⟩ <;> omega

theorem partFoldC_eq (parts : List Str) (tgt : Nat) :
    ∀ (todo : List Str) (st : List Str × Nat × Nat),
      st.1.length = 3 → st.2.1 < 3 → (∀ p ∈ todo, p ∈ parts) →
      List.foldlM (partStepC parts tgt 3) st todo
          = some (List.foldl (partStep parts tgt 3) st todo)
        ∧ (List.foldl (partStep parts tgt 3) st todo).1.length = 3
        ∧ (List.foldl (partStep parts tgt 3) st todo).2.1 < 3 := by
  intro todo
  induction todo with
  | nil => intro st h1 h2 _; exact ⟨rfl, h1, h2⟩
  | cons p t ih =>
    intro st h1 h2 h3
    have hstep := partStepC_eq parts tgt st p (by omega) (h3 p (by simp))
    obtain ⟨hl, hc⟩ := partStep_inv parts tgt st p h1 h2
    have := ih (partStep parts tgt 3 st p) hl hc (fun x hx => h3 x (by simp [hx]))
    refine ⟨?_, by simpa using this.2.1, by simpa using this.2.2⟩
    rw [List.foldlM_cons, hstep]
    simpa using this.1

theorem distribute_partsC_eq (parts : List Str) :
    distribute_partsC parts 3 = some (distribute_parts parts 3) := by
  by_cases hlen : parts.length = 3
  · obtain ⟨p, q, r, rfl⟩ : ∃ p q r, parts = [p, q, r] := by
      match parts, hlen with
      | [p, q, r], _ => exact ⟨p, q, r, rfl⟩
    rfl
  · have hfold := partFoldC_eq parts ((parts.map List.length).sum / 3) parts
      ([[], [], []], 0, 0) rfl (by decide) (fun x hx => hx)
    have hl3 := hfold.2.1
    simp only [distribute_partsC]
    rw [if_neg hlen, if_neg (by decide : ¬(3 : Nat) = 0)]
    rw [distribute_parts_greedy parts hlen]
    rw [hfold.1]
    simp only [Option.bind_eq_bind, Option.map_some', Option.some_bind]
    rw [get?_eq_some_getD _ 0 (by omega), get?_eq_some_getD _ 1 (by omega),
      get?_eq_some_getD _ 2 (by omega)]
    simp only [Option.some_bind]

theorem splitCoreC_eq (a : Str) : splitCoreC a = some (splitCore a) := by
  by_cases ha : a = []
  · subst ha; rfl
  · by_cases hp : (partsOf a).length ≥ 3
    · simp only [splitCoreC]
      rw [if_neg ha, if_pos hp, splitCore_parts a ha hp]
      exact distribute_partsC_eq (partsOf a)
    · by_cases hw : (pySplit a).length < 3
      · have hpad : (padWords (pySplit a)).length = 3 := by
          simp only [padWords, List.length_append, List.length_replicate]
          omega
        simp only [splitCoreC]
        rw [if_neg ha, if_neg hp, if_pos hw, splitCore_pad a ha hp hw]
        simp only [Option.bind_eq_bind]
        rw [get?_eq_some_getD _ 0 (by omega), get?_eq_some_getD _ 1 (by omega),
          get?_eq_some_getD _ 2 (by omega)]
        simp only [Option.some_bind]
      · have hfold := wordFoldC_eq (pySplit a) (a.length / 3) (pySplit a)
          ([[], [], []], 0) rfl (by decide) (fun x hx => hx)
        have hl3 := hfold.2.1
        simp only [splitCoreC]
        rw [if_neg ha, if_neg hp, if_neg hw, splitCore_words a ha hp hw]
        rw [hfold.1]
        simp only [Option.bind_eq_bind, Option.some_bind]
        rw [get?_eq_some_getD _ 0 (by omega), get?_eq_some_getD _ 1 (by omega),
          get?_eq_some_getD _ 2 (by omega)]
        simp only [Option.some_bind]

/-! ### Remaining helpers for the claims -/

theorem isEmpty_false_of_ne (x : Str) (h : x ≠ []) : x.isEmpty = false := by
  cases x with
  | nil => exact absurd rfl h
  | cons c t => rfl

theorem filter_nonempty_eq_self (l : List Str) (h : ∀ p ∈ l, p ≠ []) :
    l.filter (fun p => !p.isEmpty) = l := by
  induction l with
  | nil => rfl
  | cons x t ih =>
    rw [List.filter_cons, if_pos (by simp [isEmpty_false_of_ne x (h x (by simp))])]
    rw [ih (fun p hp => h p (by simp [hp]))]

theorem getD_replicate_nil (k j : Nat) :
    (List.replicate k ([] : Str)).getD j [] = [] := by
  induction k generalizing j with
  | zero => cases j <;> rfl
  | succ n ih => cases j with
    | zero => rfl
    | succ m => simpa [List.replicate] using ih m

theorem padWords_getD (ws : List Str) (i : Nat) :
    (padWords ws).getD i [] = ws.getD i [] := by
  by_cases hi : i < ws.length
  · exact List.getD_append ws _ [] i hi
  · rw [padWords, List.getD_append_right ws _ [] i (by omega),
      getD_replicate_nil, List.getD_eq_default ws [] (by omega)]

theorem splitCS_comma_space : splitCS [',', ' '] = [[], []] := rfl

/-- Re-splitting the `", "`-join of three block-joined lines (first block
nonempty, an empty middle block forcing an empty last block) and dropping
empty pieces recovers the blocks in order. -/
theorem resplit_three (b1 b2 b3 : List Str) (h1 : b1 ≠ [])
    (hne : ∀ p ∈ b1 ++ b2 ++ b3, p ≠ []) (hcf : ∀ p ∈ b1 ++ b2 ++ b3, ',' ∉ p)
    (h23 : b2 = [] → b3 = []) :
    (splitCS (joinCS b1 ++ ',' :: ' ' ::
        (joinCS b2 ++ ',' :: ' ' :: joinCS b3))).filter (fun p => !p.isEmpty)
      = b1 ++ b2 ++ b3 := by
  have hne1 : ∀ p ∈ b1, p ≠ [] := fun p hp => hne p (by simp [hp])
  have hne2 : ∀ p ∈ b2, p ≠ [] := fun p hp => hne p (by simp [hp])
  have hne3 : ∀ p ∈ b3, p ≠ [] := fun p hp => hne p (by simp [hp])
  have hcf1 : ∀ p ∈ b1, ',' ∉ p := fun p hp => hcf p (by simp [hp])
  have hcf2 : ∀ p ∈ b2, ',' ∉ p := fun p hp => hcf p (by simp [hp])
  have hcf3 : ∀ p ∈ b3, ',' ∉ p := fun p hp => hcf p (by simp [hp])
  rcases eq_or_ne b2 [] with rfl | hb2
  · have hb3 := h23 rfl
    subst hb3
    rw [joinCS_nil]
    rw [show ([] : Str) ++ ',' :: ' ' :: ([] : Str) = [',', ' '] from rfl]
    rw [splitCS_join_append b1 [',', ' '] h1 hcf1, splitCS_comma_space]
    rw [List.filter_append, filter_nonempty_eq_self b1 hne1]
    simp
  · rcases eq_or_ne b3 [] with rfl | hb3
    · rw [joinCS_nil, List.append_nil]
      rw [splitCS_join_append b1 _ h1 hcf1, splitCS_join_append b2 [] hb2 hcf2]
      rw [show splitCS [] = [[]] from rfl]
      rw [List.filter_append, filter_nonempty_eq_self b1 hne1,
        List.filter_append, filter_nonempty_eq_self b2 hne2]
      simp
    · rw [splitCS_join_append b1 _ h1 hcf1, splitCS_join_append b2 _ hb2 hcf2,
        splitCS_joinCS b3 hb3 hcf3]
      rw [List.filter_append, filter_nonempty_eq_self b1 hne1,
        List.filter_append, filter_nonempty_eq_self b2 hne2,
        filter_nonempty_eq_self b3 hne3]
      simp [List.append_assoc]

/-- Space-joining the nonempty ones among three block-joined lines (first
block nonempty, an empty middle block forcing an empty last block)
recovers the space-join of all the blocks' words. -/
theorem joinSp_filter_blocks (b1 b2 b3 : List Str)
    (hne : ∀ x ∈ b1 ++ b2 ++ b3, x ≠ []) (h1 : b1 ≠ [])
    (h23 : b2 = [] → b3 = []) :
    joinSp (([joinSp b1, joinSp b2, joinSp b3] : List Str).filter (fun p => !p.isEmpty))
      = joinSp (b1 ++ b2 ++ b3) := by
  have hne1 : ∀ x ∈ b1, x ≠ [] := fun x hx => hne x (by simp [hx])
  have hne2 : ∀ x ∈ b2, x ≠ [] := fun x hx => hne x (by simp [hx])
  have hne3 : ∀ x ∈ b3, x ≠ [] := fun x hx => hne x (by simp [hx])
  have hj1 : (joinSp b1).isEmpty = false :=
    isEmpty_false_of_ne _ (joinSp_ne_nil b1 h1 hne1)
  rcases eq_or_ne b2 [] with rfl | hb2
  · have hb3 := h23 rfl
    subst hb3
    have hf : (([joinSp b1, joinSp [], joinSp []] : List Str).filter
        (fun p => !p.isEmpty)) = [joinSp b1] := by
      simp [List.filter_cons, hj1, joinSp_nil]
    rw [hf]
    simp [joinSp_singleton, joinSp_nil]
  · have hj2 : (joinSp b2).isEmpty = false :=
      isEmpty_false_of_ne _ (joinSp_ne_nil b2 hb2 hne2)
    rcases eq_or_ne b3 [] with rfl | hb3
    · have hf : (([joinSp b1, joinSp b2, joinSp []] : List Str).filter
          (fun p => !p.isEmpty)) = [joinSp b1, joinSp b2] := by
        simp [List.filter_cons, hj1, hj2, joinSp_nil]
      rw [hf]
      rw [show joinSp [joinSp b1, joinSp b2] = joinSp b1 ++ ' ' :: joinSp b2 from rfl,
        ← joinSp_append b1 b2 h1 hb2]
      simp
    · have hj3 : (joinSp b3).isEmpty = false :=
        isEmpty_false_of_ne _ (joinSp_ne_nil b3 hb3 hne3)
      have hf : (([joinSp b1, joinSp b2, joinSp b3] : List Str).filter
          (fun p => !p.isEmpty)) = [joinSp b1, joinSp b2, joinSp b3] := by
        simp [List.filter_cons, hj1, hj2, hj3]
      rw [hf]
      rw [show joinSp [joinSp b1, joinSp b2, joinSp b3]
          = joinSp b1 ++ ' ' :: (joinSp b2 ++ ' ' :: joinSp b3) from rfl,
        ← joinSp_append b2 b3 hb2 hb3,
        ← joinSp_append b1 (b2 ++ b3) h1 (by simp [hb2])]
      simp [List.append_assoc]

/-! ## The claims -/

/-- Claim C1: for every input string, `split_address_equally` returns
exactly three line strings (`address_line_1`, `address_line_2`,
`address_line_3`), never fewer, never more, never null: its value list
always has length 3 (and each entry is a total string by type). -/
theorem C1_always_three_lines (s : Str) :
    (split_address_equally s).toList.length = 3 := rfl

/-- Claim C2: `split_address_equally` is total: the checked variant, in
which every list index, every `list.index` lookup and every integer
division of the source is made explicitly partial, succeeds on every
string input (including the empty string, delimiter-only strings and
whitespace-only strings) and agrees with the plain function. -/
theorem C2_total (s : Str) :
    split_address_equallyC s = some (split_address_equally s) :=
  splitCoreC_eq (normalizeStr s)

/-- Claim C3 (counterexample): `split_address_equally "123 Short St"`
does NOT return `("123", "Short", "St")`. -/
theorem C3_counterexample :
    split_address_equally ("123 Short St".toList) ≠
      ⟨"123".toList, "Short".toList, "St".toList⟩ := by decide

/-- Claim C3 (amended): `split_address_equally "123 Short St"` does take
the word-based path (fewer than 3 segments) with exactly 3 words and no
padding, but the guard requiring at least 10 characters of remaining
text per remaining line never allows a line advance, so every word
accumulates on the first line: the result is `("123 Short St", "", "")`. -/
theorem C3_amended_all_on_first_line :
    (partsOf (normalizeStr ("123 Short St".toList))).length < 3 ∧
    (pySplit (normalizeStr ("123 Short St".toList))).length = 3 ∧
    split_address_equally ("123 Short St".toList) =
      ⟨"123 Short St".toList, [], []⟩ :=
  ⟨by decide, by decide, by decide⟩

/-- Claim C5: whenever the segment list has exactly 3 entries, each
segment becomes one output line verbatim, with no joining. -/
theorem C5_three_segments_verbatim (s : Str) (p q r : Str)
    (h : partsOf (normalizeStr s) = [p, q, r]) :
    split_address_equally s = ⟨p, q, r⟩ := by
  have ha : normalizeStr s ≠ [] := by
    intro h0
    rw [h0, partsOf_nil] at h
    exact List.noConfusion h
  show splitCore (normalizeStr s) = _
  rw [splitCore_parts (normalizeStr s) ha (by rw [h]; exact le_refl 3), h,
    distribute_parts_three]

/-- Claim C5 witness: `split_address_equally "A, B, C" = ("A", "B", "C")`. -/
theorem C5_witness :
    partsOf (normalizeStr ("A, B, C".toList)) = ["A".toList, "B".toList, "C".toList] ∧
    split_address_equally ("A, B, C".toList) = ⟨"A".toList, "B".toList, "C".toList⟩ :=
  ⟨by decide, C5_three_segments_verbatim ("A, B, C".toList) _ _ _ (by decide)⟩

/-- Claim C6: an input whose normalized form is empty yields three empty
strings; and on the word path with fewer than 3 words the result is the
word list padded with empty strings to length 3, the words unmodified. -/
theorem C6_empty_and_padding (s : Str) :
    (normalizeStr s = [] → split_address_equally s = ⟨[], [], []⟩) ∧
    ((partsOf (normalizeStr s)).length < 3 → (pySplit (normalizeStr s)).length < 3 →
      split_address_equally s =
        ⟨(pySplit (normalizeStr s)).getD 0 [], (pySplit (normalizeStr s)).getD 1 [],
          (pySplit (normalizeStr s)).getD 2 []⟩) := by
  constructor
  · intro h0
    show splitCore (normalizeStr s) = _
    rw [h0]
    rfl
  · intro hp hw
    by_cases h0 : normalizeStr s = []
    · show splitCore (normalizeStr s) = _
      rw [h0]
      rfl
    · show splitCore (normalizeStr s) = _
      rw [splitCore_pad (normalizeStr s) h0 (by omega) hw,
        padWords_getD, padWords_getD, padWords_getD]

/-- Claim C6 witness: a whitespace-only input gives three empty lines,
and `split_address_equally "Hello" = ("Hello", "", "")`. -/
theorem C6_witness :
    (normalizeStr (" \t ".toList) = [] ∧
      split_address_equally (" \t ".toList) = ⟨[], [], []⟩) ∧
    ((partsOf (normalizeStr ("Hello".toList))).length < 3 ∧
      (pySplit (normalizeStr ("Hello".toList))).length < 3 ∧
      split_address_equally ("Hello".toList) = ⟨"Hello".toList, [], []⟩) := by
  refine ⟨⟨by decide, (C6_empty_and_padding (" \t ".toList)).1 (by decide)⟩,
    by decide, by decide, ?_⟩
  exact ((C6_empty_and_padding ("Hello".toList)).2 (by decide) (by decide)).trans (by decide)

/-- Claim C7: the result is invariant under pre-normalizing the input:
`split_address_equally s = split_address_equally (normalize s)`, where
`normalize` collapses whitespace runs to single spaces and trims. -/
theorem C7_normalize_invariant (s : Str) :
    split_address_equally s = split_address_equally (normalizeStr s) := by
  show splitCore (normalizeStr s) = splitCore (normalizeStr (normalizeStr s))
  rw [normalizeStr_idem]

/-- Claim C8: the remaining text used by the line-advance guard
(`remainingTextUsed`, exactly the expression on lines 73-74 of the
source and the one `wordStep` consults) is computed from the first
occurrence of the current word's value: for any occurrence of a word at
position `j`, the text is the join of the words after the FIRST position
holding that value, which is at most `j`. -/
theorem C8_value_based_remaining (words : List Str) (j : Nat) (hj : j < words.length) :
    firstIdx words (words.getD j []) ≤ j ∧
    firstIdx words (words.getD j []) < words.length ∧
    words.getD (firstIdx words (words.getD j [])) [] = words.getD j [] ∧
    (∀ k, k < firstIdx words (words.getD j []) → words.getD k [] ≠ words.getD j []) ∧
    remainingTextUsed words (words.getD j [])
      = joinSp (words.drop (firstIdx words (words.getD j []) + 1)) := by
  have hmem : words.getD j [] ∈ words := by
    rw [List.getD_eq_getElem words [] hj]
    exact List.getElem_mem hj
  exact ⟨firstIdx_le words _ j hj rfl, firstIdx_lt_length words _ hmem,
    getD_firstIdx words _ hmem, firstIdx_min words _, rfl⟩

/-- Claim C8 witness: in `"Street Street Ave Blvd Road"` the second
`"Street"` (position 1) resolves to the remaining text after the first
occurrence (position 0). -/
theorem C8_witness :
    1 < (pySplit (normalizeStr ("Street Street Ave Blvd Road".toList))).length ∧
    (firstIdx (pySplit (normalizeStr ("Street Street Ave Blvd Road".toList)))
        ((pySplit (normalizeStr ("Street Street Ave Blvd Road".toList))).getD 1 []) ≤ 1 ∧
      firstIdx (pySplit (normalizeStr ("Street Street Ave Blvd Road".toList)))
        ((pySplit (normalizeStr ("Street Street Ave Blvd Road".toList))).getD 1 [])
        < (pySplit (normalizeStr ("Street Street Ave Blvd Road".toList))).length ∧
      (pySplit (normalizeStr ("Street Street Ave Blvd Road".toList))).getD
        (firstIdx (pySplit (normalizeStr ("Street Street Ave Blvd Road".toList)))
          ((pySplit (normalizeStr ("Street Street Ave Blvd Road".toList))).getD 1 [])) []
        = (pySplit (normalizeStr ("Street Street Ave Blvd Road".toList))).getD 1 [] ∧
      (∀ k, k < firstIdx (pySplit (normalizeStr ("Street Street Ave Blvd Road".toList)))
          ((pySplit (normalizeStr ("Street Street Ave Blvd Road".toList))).getD 1 []) →
        (pySplit (normalizeStr ("Street Street Ave Blvd Road".toList))).getD k []
          ≠ (pySplit (normalizeStr ("Street Street Ave Blvd Road".toList))).getD 1 []) ∧
      remainingTextUsed (pySplit (normalizeStr ("Street Street Ave Blvd Road".toList)))
          ((pySplit (normalizeStr ("Street Street Ave Blvd Road".toList))).getD 1 [])
        = joinSp ((pySplit (normalizeStr ("Street Street Ave Blvd Road".toList))).drop
            (firstIdx (pySplit (normalizeStr ("Street Street Ave Blvd Road".toList)))
              ((pySplit (normalizeStr ("Street Street Ave Blvd Road".toList))).getD 1 [])
              + 1))) :=
  ⟨by decide,
    C8_value_based_remaining (pySplit (normalizeStr ("Street Street Ave Blvd Road".toList)))
      1 (by decide)⟩

/-- Claim C4: with 3 or more segments the result comes from the even
distribution algorithm `distribute_parts` — never from word-splitting —
and joining the three output lines and re-splitting on `", "` (dropping
empty pieces) yields every segment exactly once, in the original order. -/
theorem C4_even_distribution (s : Str) (h : (partsOf (normalizeStr s)).length ≥ 3) :
    split_address_equally s = distribute_parts (partsOf (normalizeStr s)) 3 ∧
    (splitCS ((split_address_equally s).address_line_1 ++ ',' :: ' ' ::
        ((split_address_equally s).address_line_2 ++ ',' :: ' ' ::
          (split_address_equally s).address_line_3))).filter (fun p => !p.isEmpty)
      = partsOf (normalizeStr s) := by
  have ha : normalizeStr s ≠ [] := by
    intro h0
    rw [h0, partsOf_nil] at h
    simp at h
  have heq : split_address_equally s = distribute_parts (partsOf (normalizeStr s)) 3 :=
    splitCore_parts (normalizeStr s) ha h
  refine ⟨heq, ?_⟩
  obtain ⟨b1, b2, b3, hsplit, hdist, hcase⟩ :=
    distribute_parts_blocks (partsOf (normalizeStr s)) h
      (fun p hp => (partsOf_props (normalizeStr s) p hp).1)
  rw [heq, hdist]
  show (splitCS (joinCS b1 ++ ',' :: ' ' ::
      (joinCS b2 ++ ',' :: ' ' :: joinCS b3))).filter (fun p => !p.isEmpty)
    = partsOf (normalizeStr s)
  have hne : ∀ p ∈ b1 ++ b2 ++ b3, p ≠ [] := by
    rw [← hsplit]
    exact fun p hp => (partsOf_props _ p hp).1
  have hcf : ∀ p ∈ b1 ++ b2 ++ b3, ',' ∉ p := by
    rw [← hsplit]
    exact fun p hp => (partsOf_props _ p hp).2
  have h1 : b1 ≠ [] := by
    rcases hcase with ⟨g1, _, _⟩ | ⟨g1, _⟩ | ⟨g1, _⟩
    · rw [g1]
      intro hc
      rw [hc] at h
      simp at h
    · exact g1
    · exact g1
  have h23 : b2 = [] → b3 = [] := by
    intro hb2
    rcases hcase with ⟨_, _, g3⟩ | ⟨_, _, g3⟩ | ⟨_, g2⟩
    · exact g3
    · exact g3
    · exact absurd hb2 g2
  rw [resplit_three b1 b2 b3 h1 hne hcf h23, hsplit]

/-- Claim C4 witness: the 5-segment example
`"123 Main Street, Apartment 4B, Springfield, IL 62701, United States"`. -/
theorem C4_witness :
    (partsOf (normalizeStr
        ("123 Main Street, Apartment 4B, Springfield, IL 62701, United States".toList))).length
      ≥ 3 ∧
    (split_address_equally
        ("123 Main Street, Apartment 4B, Springfield, IL 62701, United States".toList)
      = distribute_parts (partsOf (normalizeStr
          ("123 Main Street, Apartment 4B, Springfield, IL 62701, United States".toList))) 3 ∧
    (splitCS ((split_address_equally
          ("123 Main Street, Apartment 4B, Springfield, IL 62701, United States".toList)).address_line_1
        ++ ',' :: ' ' ::
        ((split_address_equally
          ("123 Main Street, Apartment 4B, Springfield, IL 62701, United States".toList)).address_line_2
        ++ ',' :: ' ' ::
        (split_address_equally
          ("123 Main Street, Apartment 4B, Springfield, IL 62701, United States".toList)).address_line_3))).filter
        (fun p => !p.isEmpty)
      = partsOf (normalizeStr
          ("123 Main Street, Apartment 4B, Springfield, IL 62701, United States".toList))) :=
  ⟨by decide,
    C4_even_distribution
      ("123 Main Street, Apartment 4B, Springfield, IL 62701, United States".toList)
      (by decide)⟩

/-- Claim C9: empty output lines occur only as a trailing suffix of the
triple, and the first line is nonempty whenever the normalized input is
nonempty. -/
theorem C9_empty_lines_trailing (s : Str) :
    ((split_address_equally s).address_line_2 ≠ [] →
      (split_address_equally s).address_line_1 ≠ []) ∧
    ((split_address_equally s).address_line_3 ≠ [] →
      (split_address_equally s).address_line_2 ≠ []) ∧
    (normalizeStr s ≠ [] → (split_address_equally s).address_line_1 ≠ []) := by
  by_cases ha : normalizeStr s = []
  · have h0 : split_address_equally s = ⟨[], [], []⟩ := by
      show splitCore (normalizeStr s) = _
      rw [ha]
      rfl
    rw [h0]
    exact ⟨fun h => (h rfl).elim, fun h => (h rfl).elim, fun h => (h ha).elim⟩
  · by_cases hp : (partsOf (normalizeStr s)).length ≥ 3
    · have heq : split_address_equally s = distribute_parts (partsOf (normalizeStr s)) 3 :=
        splitCore_parts (normalizeStr s) ha hp
      obtain ⟨b1, b2, b3, hsplit, hdist, hcase⟩ :=
        distribute_parts_blocks _ hp (fun p hq => (partsOf_props _ p hq).1)
      have hne : ∀ p ∈ b1 ++ b2 ++ b3, p ≠ [] := by
        rw [← hsplit]
        exact fun p hq => (partsOf_props _ p hq).1
      rw [heq.trans hdist]
      rcases hcase with ⟨g1, g2, g3⟩ | ⟨g1, g2, g3⟩ | ⟨g1, g2⟩
      · subst g2
        subst g3
        have hb1 : b1 ≠ [] := by
          rw [g1]
          intro hc
          rw [hc] at hp
          simp at hp
        exact ⟨fun h => (h rfl).elim, fun h => (h rfl).elim,
          fun _ => joinCS_ne_nil b1 hb1 (fun x hx => hne x (by simp [hx]))⟩
      · subst g3
        have l1ne := joinCS_ne_nil b1 g1 (fun x hx => hne x (by simp [hx]))
        exact ⟨fun _ => l1ne, fun h => (h rfl).elim, fun _ => l1ne⟩
      · have l1ne := joinCS_ne_nil b1 g1 (fun x hx => hne x (by simp [hx]))
        have l2ne := joinCS_ne_nil b2 g2 (fun x hx => hne x (by simp [hx]))
        exact ⟨fun _ => l1ne, fun _ => l2ne, fun _ => l1ne⟩
    · have htok := pySplit_tokens (normalizeStr s)
      by_cases hw : (pySplit (normalizeStr s)).length < 3
      · have hres := splitCore_pad (normalizeStr s) ha hp hw
        have hkey : joinSp (pySplit (normalizeStr s)) = normalizeStr s := normalizeStr_idem s
        rcases hlist : pySplit (normalizeStr s) with _ | ⟨w1, t⟩
        · exfalso
          apply ha
          rw [← hkey, hlist]
          rfl
        · rcases t with _ | ⟨w2, t2⟩
          · have h1 : w1 ≠ [] := (htok w1 (by rw [hlist]; simp)).1
            have hres3 : split_address_equally s = ⟨w1, [], []⟩ := by
              show splitCore (normalizeStr s) = _
              rw [hres, hlist]
              rfl
            rw [hres3]
            exact ⟨fun h => (h rfl).elim, fun h => (h rfl).elim, fun _ => h1⟩
          · rcases t2 with _ | ⟨w3, t3⟩
            · have h1 : w1 ≠ [] := (htok w1 (by rw [hlist]; simp)).1
              have hres3 : split_address_equally s = ⟨w1, w2, []⟩ := by
                show splitCore (normalizeStr s) = _
                rw [hres, hlist]
                rfl
              rw [hres3]
              exact ⟨fun _ => h1, fun h => (h rfl).elim, fun _ => h1⟩
            · rw [hlist] at hw
              simp at hw
              omega
      · obtain ⟨b1, b2, b3, hsplit, hres, hcase⟩ :=
          splitCore_word_blocks (normalizeStr s) ha hp hw
        have hwne : pySplit (normalizeStr s) ≠ [] := by
          intro hc
          rw [hc] at hw
          simp at hw
        have hne : ∀ x ∈ b1 ++ b2 ++ b3, x ≠ [] := by
          rw [← hsplit]
          exact fun x hx => (htok x hx).1
        rw [show split_address_equally s = ⟨joinSp b1, joinSp b2, joinSp b3⟩ from hres]
        rcases hcase with ⟨g1, g2, g3⟩ | ⟨g1, g3⟩ | ⟨g1, g2⟩
        · subst g2
          subst g3
          have hb1 : b1 ≠ [] := by rw [g1]; exact hwne
          exact ⟨fun h => (h rfl).elim, fun h => (h rfl).elim,
            fun _ => joinSp_ne_nil b1 hb1 (fun x hx => hne x (by simp [hx]))⟩
        · subst g3
          have l1ne := joinSp_ne_nil b1 g1 (fun x hx => hne x (by simp [hx]))
          exact ⟨fun _ => l1ne, fun h => (h rfl).elim, fun _ => l1ne⟩
        · have l1ne := joinSp_ne_nil b1 g1 (fun x hx => hne x (by simp [hx]))
          have l2ne := joinSp_ne_nil b2 g2 (fun x hx => hne x (by simp [hx]))
          exact ⟨fun _ => l1ne, fun _ => l2ne, fun _ => l1ne⟩

/-- Claim C9 witness: on `"A, B, C"` all three lines are nonempty, so
every hypothesis of the trailing-empties theorem is discharged. -/
theorem C9_witness :
    ((split_address_equally ("A, B, C".toList)).address_line_2 ≠ [] ∧
      (split_address_equally ("A, B, C".toList)).address_line_1 ≠ []) ∧
    ((split_address_equally ("A, B, C".toList)).address_line_3 ≠ [] ∧
      (split_address_equally ("A, B, C".toList)).address_line_2 ≠ []) ∧
    (normalizeStr ("A, B, C".toList) ≠ [] ∧
      (split_address_equally ("A, B, C".toList)).address_line_1 ≠ []) :=
  ⟨⟨by decide, (C9_empty_lines_trailing ("A, B, C".toList)).1 (by decide)⟩,
   ⟨by decide, (C9_empty_lines_trailing ("A, B, C".toList)).2.1 (by decide)⟩,
   ⟨by decide, (C9_empty_lines_trailing ("A, B, C".toList)).2.2 (by decide)⟩⟩

/-- Claim C10: when fewer than 3 segments exist (the word path, padding
case included), space-joining the nonempty output lines reproduces the
normalized input exactly: no word is lost, duplicated or reordered. -/
theorem C10_word_path_preserves (s : Str)
    (h : (partsOf (normalizeStr s)).length < 3) :
    joinSp (((split_address_equally s).toList).filter (fun p => !p.isEmpty))
      = normalizeStr s := by
  have hkey : joinSp (pySplit (normalizeStr s)) = normalizeStr s := normalizeStr_idem s
  by_cases ha : normalizeStr s = []
  · have h0 : split_address_equally s = ⟨[], [], []⟩ := by
      show splitCore (normalizeStr s) = _
      rw [ha]
      rfl
    rw [h0, ha]
    rfl
  · have htok := pySplit_tokens (normalizeStr s)
    have hp : ¬(partsOf (normalizeStr s)).length ≥ 3 := by omega
    by_cases hw : (pySplit (normalizeStr s)).length < 3
    · have hres := splitCore_pad (normalizeStr s) ha hp hw
      rcases hlist : pySplit (normalizeStr s) with _ | ⟨w1, t⟩
      · exfalso
        apply ha
        rw [← hkey, hlist]
        rfl
      · rcases t with _ | ⟨w2, t2⟩
        · have h1 : w1 ≠ [] := (htok w1 (by rw [hlist]; simp)).1
          have hres3 : split_address_equally s = ⟨w1, [], []⟩ := by
            show splitCore (normalizeStr s) = _
            rw [hres, hlist]
            rfl
          rw [hres3, ← hkey, hlist]
          show joinSp (([w1, [], []] : List Str).filter (fun p => !p.isEmpty)) = joinSp [w1]
          rw [show ([w1, [], []] : List Str).filter (fun p => !p.isEmpty) = [w1] from by
            simp [List.filter_cons, isEmpty_false_of_ne w1 h1]]
        · rcases t2 with _ | ⟨w3, t3⟩
          · have h1 : w1 ≠ [] := (htok w1 (by rw [hlist]; simp)).1
            have h2 : w2 ≠ [] := (htok w2 (by rw [hlist]; simp)).1
            have hres3 : split_address_equally s = ⟨w1, w2, []⟩ := by
              show splitCore (normalizeStr s) = _
              rw [hres, hlist]
              rfl
            rw [hres3, ← hkey, hlist]
            show joinSp (([w1, w2, []] : List Str).filter (fun p => !p.isEmpty))
              = joinSp [w1, w2]
            rw [show ([w1, w2, []] : List Str).filter (fun p => !p.isEmpty) = [w1, w2] from by
              simp [List.filter_cons, isEmpty_false_of_ne w1 h1, isEmpty_false_of_ne w2 h2]]
          · rw [hlist] at hw
            simp at hw
            omega
    · obtain ⟨b1, b2, b3, hsplit, hres, hcase⟩ :=
        splitCore_word_blocks (normalizeStr s) ha hp hw
      have hwne : pySplit (normalizeStr s) ≠ [] := by
        intro hc
        rw [hc] at hw
        simp at hw
      have hne : ∀ x ∈ b1 ++ b2 ++ b3, x ≠ [] := by
        rw [← hsplit]
        exact fun x hx => (htok x hx).1
      have h1 : b1 ≠ [] := by
        rcases hcase with ⟨g1, _, _⟩ | ⟨g1, _⟩ | ⟨g1, _⟩
        · rw [g1]; exact hwne
        · exact g1
        · exact g1
      have h23 : b2 = [] → b3 = [] := by
        intro hb2
        rcases hcase with ⟨_, _, g3⟩ | ⟨_, g3⟩ | ⟨_, g2⟩
        · exact g3
        · exact g3
        · exact absurd hb2 g2
      rw [show split_address_equally s = ⟨joinSp b1, joinSp b2, joinSp b3⟩ from hres]
      show joinSp (([joinSp b1, joinSp b2, joinSp b3] : List Str).filter
          (fun p => !p.isEmpty)) = normalizeStr s
      rw [joinSp_filter_blocks b1 b2 b3 hne h1 h23, ← hsplit, hkey]

/-- Claim C10 witness: `"123 Short St"` has a single segment; joining the
nonempty output lines gives back the normalized input. -/
theorem C10_witness :
    (partsOf (normalizeStr ("123 Short St".toList))).length < 3 ∧
    joinSp (((split_address_equally ("123 Short St".toList)).toList).filter
        (fun p => !p.isEmpty))
      = normalizeStr ("123 Short St".toList) :=
  ⟨by decide, C10_word_path_preserves ("123 Short St".toList) (by decide)⟩

end AddrSplit
